import Mathlib

/-!
Shallow embedding of the timetracking CLI (src/main.rs).

Modelling conventions:
* `DateTime<Utc>` instants are `Int` seconds since the Unix epoch (the events
  are serialised with second resolution via `ts_seconds`; the code compares
  `timestamp_millis()` values, which for second-resolution instants is the
  same ordering as comparing seconds).
* The local timezone is modelled as a fixed offset `tz` (seconds east of UTC):
  a local naive timestamp `n` denotes the UTC instant `n - tz`.
* `chrono` niceties: `with_second(0)` on an instant zeroes the seconds-of-minute
  field, i.e. maps `t` to `t - t.emod 60`; `with_day(d)` returns `none` when `d`
  is not a valid day-of-month (in the source, the `u32` subtraction
  `now.day() - monday_offset` underflows when the offset exceeds the day; the
  wrapped value is far beyond any month length, so `with_day` again yields
  `none`).
* `Local::now()` / `Utc::now()` and the string parsers are external inputs to
  the embedded functions: the mutation operations take the already-resolved
  event timestamp, and `show` takes the already-parsed `from`/`to` bounds,
  today's local date, and the current instant as parameters.
-/

/-- Payload shared by both event kinds (struct `TrackingData`). -/
structure TrackingData where
  description : Option String
  time : Int
deriving DecidableEq, Repr

/-- The event type (enum `TrackingEvent`). -/
inductive TrackingEvent where
  | Start : TrackingData → TrackingEvent
  | Stop : TrackingData → TrackingEvent
deriving DecidableEq, Repr

/-- `with_second(0)` on an instant: zero the seconds-of-minute field. -/
def truncMin (t : Int) : Int := t - t % 60

/-- `TrackingEvent::time(include_seconds)`: the stored instant, with the
seconds field zeroed unless `include_seconds`. -/
def TrackingEvent.time (e : TrackingEvent) (include_seconds : Bool) : Int :=
  match e with
  | .Start td | .Stop td => if include_seconds then td.time else truncMin td.time

/-- `TrackingEvent::description`. -/
def TrackingEvent.description : TrackingEvent → Option String
  | .Start td | .Stop td => td.description

/-- `TrackingEvent::is_start`. -/
def TrackingEvent.is_start : TrackingEvent → Bool
  | .Start _ => true
  | .Stop _ => false

/-- `TrackingEvent::is_stop`. -/
def TrackingEvent.is_stop : TrackingEvent → Bool
  | .Start _ => false
  | .Stop _ => true

/-- `start_tracking`: append a `Start` iff the log is empty or ends in a
`Stop`.  The third argument is the already-resolved event instant
(`at or now`). -/
def start_tracking (data : List TrackingEvent) (description : Option String)
    (time : Int) : List TrackingEvent :=
  let should_add :=
    match data.getLast? with
    | none => true
    | some event => event.is_stop
  if should_add then data ++ [.Start ⟨description, time⟩] else data

/-- `stop_tracking`: append a `Stop` iff the log is empty or ends in a
`Start`. -/
def stop_tracking (data : List TrackingEvent) (description : Option String)
    (time : Int) : List TrackingEvent :=
  let should_add :=
    match data.getLast? with
    | none => true
    | some event => event.is_start
  if should_add then data ++ [.Stop ⟨description, time⟩] else data

/-- `continue_tracking`: when the last event is a `Stop`, find the most recent
`Start` (backward search) and append a fresh `Start` with its description at
instant `now`; otherwise print the "no entries" message.  The returned Bool
records whether the message was printed on stderr. -/
def continue_tracking (data : List TrackingEvent) (now : Int) :
    List TrackingEvent × Bool :=
  match data.getLast? with
  | some (.Stop _) =>
    match data.reverse.find? (fun t => t.is_start) with
    | some (.Start td) =>
      (data ++ [.Start ⟨td.description, now⟩], false)
    | _ => (data, false)
  | _ => (data, true)

/-! ## Calendar model (chrono `NaiveDate` / `NaiveDateTime`, proleptic Gregorian) -/

/-- A civil calendar date (chrono `NaiveDate`): year, month (1-12), day (1-31). -/
structure Date where
  year : Int
  month : Nat
  day : Nat
deriving DecidableEq, Repr

/-- Gregorian leap-year test. -/
def isLeap (y : Int) : Bool := (y % 4 == 0 && y % 100 != 0) || y % 400 == 0

/-- Number of days in a month of a given year (0 for invalid months). -/
def daysInMonth (y : Int) (m : Nat) : Int :=
  match m with
  | 1 => 31 | 2 => if isLeap y then 29 else 28 | 3 => 31 | 4 => 30
  | 5 => 31 | 6 => 30 | 7 => 31 | 8 => 31
  | 9 => 30 | 10 => 31 | 11 => 30 | 12 => 31
  | _ => 0

/-- Days in the same year strictly before month `m` (`l` = leap year flag). -/
def daysBeforeMonth (l : Bool) (m : Nat) : Int :=
  let li : Int := if l then 1 else 0
  match m with
  | 1 => 0 | 2 => 31 | 3 => 59 + li | 4 => 90 + li
  | 5 => 120 + li | 6 => 151 + li | 7 => 181 + li | 8 => 212 + li
  | 9 => 243 + li | 10 => 273 + li | 11 => 304 + li | 12 => 334 + li
  | _ => 0

/-- Number of leap years in `[1, y)` (proleptic, Euclidean division). -/
def leapsBefore (y : Int) : Int := (y - 1) / 4 - (y - 1) / 100 + (y - 1) / 400

/-- Days from the Unix epoch (1970-01-01) to a civil date; negative before the
epoch.  `365 * 1969 + leapsBefore 1970 = 719162` days lie between 0001-01-01
and the epoch. -/
def daysFromCivil (d : Date) : Int :=
  365 * (d.year - 1) + leapsBefore d.year +
    daysBeforeMonth (isLeap d.year) d.month + ((d.day : Int) - 1) - 719162

/-- A date is valid when its month and day are in range. -/
def validDate (d : Date) : Prop :=
  1 ≤ d.month ∧ d.month ≤ 12 ∧ 1 ≤ d.day ∧ (d.day : Int) ≤ daysInMonth d.year d.month

instance (d : Date) : Decidable (validDate d) := by
  unfold validDate; infer_instance

/-- The calendar successor of a date. -/
def nextDay (d : Date) : Date :=
  if (d.day : Int) < daysInMonth d.year d.month then ⟨d.year, d.month, d.day + 1⟩
  else if d.month < 12 then ⟨d.year, d.month + 1, 1⟩
  else ⟨d.year + 1, 1, 1⟩

/-- chrono `Date::with_day`: replace the day-of-month, `none` when out of
range for that month.  Takes an `Int` because the source computes the new day
by `u32` arithmetic that can leave the valid range in both directions. -/
def withDay (d : Date) (n : Int) : Option Date :=
  if 1 ≤ n ∧ n ≤ daysInMonth d.year d.month then some ⟨d.year, d.month, n.toNat⟩
  else none

/-- chrono `weekday().num_days_from_monday()`: 0 for Monday … 6 for Sunday.
The epoch 1970-01-01 was a Thursday (offset 3). -/
def weekdayFromMonday (d : Date) : Int := (daysFromCivil d + 3) % 7

/-- A civil date-time (chrono `NaiveDateTime`). -/
structure NaiveDT where
  date : Date
  hour : Int
  minute : Int
  second : Int
deriving DecidableEq, Repr

/-- `DateOrDateTime` from the source. -/
inductive DateOrDateTime where
  | Date : Date → DateOrDateTime
  | DateTime : NaiveDT → DateOrDateTime
deriving DecidableEq, Repr

/-- UTC instant of a local civil date-time under fixed offset `tz` (seconds
east of UTC): `TimeZone::from_local_datetime(&Local, ..)`. -/
def naiveToUtc (tz : Int) (dt : NaiveDT) : Int :=
  86400 * daysFromCivil dt.date + 3600 * dt.hour + 60 * dt.minute + dt.second - tz

/-- UTC instant of local midnight of a date:
`from_local_date(&Local, &d).and_time(NaiveTime::from_hms(0, 0, 0))`. -/
def localMidnightUtc (tz : Int) (d : Date) : Int :=
  naiveToUtc tz ⟨d, 0, 0, 0⟩

/-! ## The `show` pipeline -/

/-- Whether `pat` starts the character list `s` (Rust slice matching). -/
def hasPref : List Char → List Char → Bool
  | [], _ => true
  | _ :: _, [] => false
  | a :: as, b :: bs => a == b && hasPref as bs

/-- Rust `str::contains(pat)`: some suffix of `s` starts with `pat`. -/
def hasSub (pat : List Char) : List Char → Bool
  | [] => pat.isEmpty
  | s@(_ :: rest) => hasPref pat s || hasSub pat rest

/-- The `from`-bound test on one entry (first `.filter` in `show`): bypassed
entirely when the filter string is the literal `"all"`. -/
def fromPred (tz : Int) (filter : Option String) (fr : Option DateOrDateTime)
    (entry : TrackingEvent) : Bool :=
  if filter.getD "" = "all" then true
  else
    match fr with
    | none => true
    | some (.Date d) =>
      decide (localMidnightUtc tz d ≤ entry.time true)
    | some (.DateTime dt) =>
      decide (naiveToUtc tz dt ≤ entry.time true)

/-- The `to`-bound test on one entry (second `.filter` in `show`): a `Date`
upper bound is taken at local 23:59:59. -/
def toPred (tz : Int) (filter : Option String) (toB : Option DateOrDateTime)
    (entry : TrackingEvent) : Bool :=
  if filter.getD "" = "all" then true
  else
    match toB with
    | none => true
    | some (.Date d) =>
      decide (entry.time true ≤ naiveToUtc tz ⟨d, 23, 59, 59⟩)
    | some (.DateTime dt) =>
      decide (entry.time true ≤ naiveToUtc tz dt)

/-- The description test on one entry (third `.filter` in `show`). -/
def descPred (filter : Option String) (entry : TrackingEvent) : Bool :=
  match filter, entry.description with
  | some f, some description => f == "all" || hasSub f.toList description.toList
  | some f, none => f == "all"
  | none, _ => true

/-- The three filters of `show`'s iterator chain, in source order. -/
def filteredEvents (tz : Int) (data : List TrackingEvent)
    (fr toB : Option DateOrDateTime) (filter : Option String) :
    List TrackingEvent :=
  ((data.filter (fromPred tz filter fr)).filter (toPred tz filter toB)).filter
    (descPred filter)

/-- The non-`"week"` arm of `show`'s filter resolution: default `from` to
today, default `to` to the calendar day of the resolved `from`. -/
def resolveDefault (filter : Option String) (fromArg toArg : Option DateOrDateTime)
    (today : Date) : Option String × Option DateOrDateTime × Option DateOrDateTime :=
  let fr := fromArg.getD (.Date today)
  let toB := toArg.getD
    (match fr with
     | .DateTime dtf => .Date dtf.date
     | d => d)
  (filter, some fr, some toB)

/-- `show`'s filter/window resolution: the `"week"` literal overrides
`from`/`to` with the Monday and Sunday of today's week via `with_day`
day-of-month arithmetic (`?`-propagating `none` on failure) and clears the
description filter; anything else resolves defaults. -/
def resolveWindow (filter : Option String) (fromArg toArg : Option DateOrDateTime)
    (today : Date) :
    Option (Option String × Option DateOrDateTime × Option DateOrDateTime) :=
  match filter with
  | some s =>
    if s = "week" then
      let offset := weekdayFromMonday today
      let mondayOffset := offset
      let sundayOffset := 6 - offset
      match withDay today ((today.day : Int) - mondayOffset) with
      | none => none
      | some monday =>
        match withDay today ((today.day : Int) + sundayOffset) with
        | none => none
        | some sunday => some (none, some (.Date monday), some (.Date sunday))
    else some (resolveDefault (some s) fromArg toArg today)
  | none => some (resolveDefault none fromArg toArg today)

/-- The pairing loop of `show`: take two events at a time; a complete pair
contributes `stop.time - start.time`, a trailing lone event contributes
`now - start.time` (with `now` second-truncated unless `include_seconds`). -/
def sumSessions (include_seconds : Bool) (now : Int) :
    List TrackingEvent → Int
  | [] => 0
  | [start] =>
    (if include_seconds then now else truncMin now) - start.time include_seconds
  | start :: stop :: rest =>
    (stop.time include_seconds - start.time include_seconds) +
      sumSessions include_seconds now rest

/-- `show` up to the final printing: resolve the window, filter, skip leading
stops, and sum the sessions.  `today` is the current local date, `now` the
current instant, `tz` the fixed local offset; `none` when the `"week"` branch's
`with_day` fails (the caller `unwrap`s, i.e. panics). -/
def showTotal (data : List TrackingEvent) (fromArg toArg : Option DateOrDateTime)
    (filter : Option String) (include_seconds : Bool) (today : Date)
    (now tz : Int) : Option Int :=
  match resolveWindow filter fromArg toArg today with
  | none => none
  | some (f, fr, toB) =>
    some (sumSessions include_seconds now
      ((filteredEvents tz data fr toB f).dropWhile TrackingEvent.is_stop))

/-- `split_duration`: hours/minutes/seconds components via Rust `i64`
division (truncation toward zero, `Int.tdiv`). -/
def split_duration (secs : Int) : Int × Int × Int :=
  let hours := secs.tdiv 3600
  let hours_in_minutes := hours * 60
  let hours_in_seconds := hours_in_minutes * 60
  let minutes := secs.tdiv 60 - hours_in_minutes
  let minutes_in_seconds := minutes * 60
  let seconds := secs - hours_in_seconds - minutes_in_seconds
  (hours, minutes, seconds)

/-! ## Auxiliary definitions used by the specification statements -/

/-- An append-only operation on the event log: one `start` or `stop` command
invocation with its resolved description and instant. -/
inductive LogOp where
  | start : Option String → Int → LogOp
  | stop : Option String → Int → LogOp

/-- Apply one log operation. -/
def applyOp (l : List TrackingEvent) : LogOp → List TrackingEvent
  | .start d t => start_tracking l d t
  | .stop d t => stop_tracking l d t

/-- The log reached from the empty log by a sequence of operations. -/
def runOps (ops : List LogOp) : List TrackingEvent :=
  ops.foldl applyOp []

/-- Adjacent events always differ in kind. -/
def Alternates (l : List TrackingEvent) : Prop :=
  List.Chain' (fun a b => a.is_start ≠ b.is_start) l

/-- Split a list into consecutive chunks of two, a trailing singleton when the
length is odd (stated from the specification's reading of the pairing loop:
"consume the remaining filtered sequence two-at-a-time, left to right"). -/
def chunksOfTwo {α : Type} : List α → List (List α)
  | [] => []
  | [a] => [[a]]
  | a :: b :: rest => [a, b] :: chunksOfTwo rest

/-- Duration contributed by one chunk per the specification: a full pair
contributes second-minus-first, a trailing singleton contributes
now-minus-element. -/
def sessionValue (include_seconds : Bool) (now : Int) :
    List TrackingEvent → Int
  | [start, stop] => stop.time include_seconds - start.time include_seconds
  | [start] => (if include_seconds then now else truncMin now) -
      start.time include_seconds
  | _ => 0

/-- The aggregation as the specification words it: drop the leading stops,
chunk in pairs left to right, and sum the chunk durations. -/
def specAggregate (include_seconds : Bool) (now : Int)
    (l : List TrackingEvent) : Int :=
  ((chunksOfTwo (l.dropWhile TrackingEvent.is_stop)).map
    (sessionValue include_seconds now)).sum

/-- Zero the seconds field of an event's stored timestamp. -/
def truncEvent : TrackingEvent → TrackingEvent
  | .Start td => .Start ⟨td.description, truncMin td.time⟩
  | .Stop td => .Stop ⟨td.description, truncMin td.time⟩

/-! ## Helper lemmas -/

theorem find?_eq_of_forall_false {α : Type} {p : α → Bool} {l₁ l₂ : List α}
    (h : ∀ e ∈ l₁, p e = false) : (l₁ ++ l₂).find? p = l₂.find? p := by
  induction l₁ with
  | nil => rfl
  | cons a l ih =>
    have ha : p a = false := h a (List.mem_cons_self a l)
    simp only [List.cons_append, List.find?_cons, ha]
    exact ih fun e he => h e (List.mem_cons_of_mem a he)

theorem find_start_of_decomp (pre post : List TrackingEvent) (td : TrackingData)
    (hpost : ∀ e ∈ post, e.is_start = false) :
    ((pre ++ TrackingEvent.Start td :: post).reverse.find?
      (fun t => t.is_start)) = some (.Start td) := by
  rw [List.reverse_append, List.reverse_cons, List.append_assoc]
  rw [find?_eq_of_forall_false (fun e he => hpost e (List.mem_reverse.mp he))]
  simp [List.find?_cons, TrackingEvent.is_start]

theorem is_start_eq_not_is_stop (e : TrackingEvent) :
    e.is_start = !e.is_stop := by
  cases e <;> rfl

/-! ## Claim C1 -/

/-- C1 (counterexample): when the last event is already a `Start`,
`continue_tracking` is not silent — the "no entries" failure message is
printed (the `else` arm fires for every non-`Stop` last event). -/
theorem continue_tracking_not_silent_on_start :
    ¬ ((continue_tracking [TrackingEvent.Start ⟨none, 0⟩] 5).2 = false) := by
  decide

/-- C1 (amended): `continue_tracking` on an empty log prints the failure
message and leaves the log unchanged; when the last event is a `Start` it
also prints the same message and leaves the log unchanged (not a silent
no-op); when the last event is a `Stop` it appends a `Start` carrying the
description of the most recent prior `Start` (the last `Start` of any
decomposition `pre ++ Start td :: post` with no `Start` in `post`) at
instant `now`, printing nothing. -/
theorem continue_tracking_spec (data : List TrackingEvent) (now : Int) :
    (data = [] → continue_tracking data now = ([], true))
    ∧ (∀ td, data.getLast? = some (.Start td) →
        continue_tracking data now = (data, true))
    ∧ (∀ tdL pre td post,
        data.getLast? = some (.Stop tdL) →
        data = pre ++ TrackingEvent.Start td :: post →
        (∀ e ∈ post, e.is_start = false) →
        continue_tracking data now =
          (data ++ [.Start ⟨td.description, now⟩], false)) := by
  refine ⟨?_, ?_, ?_⟩
  · rintro rfl
    rfl
  · intro td h
    simp only [continue_tracking, h]
  · intro tdL pre td post hlast hdec hpost
    simp only [continue_tracking, hlast]
    rw [hdec, find_start_of_decomp pre post td hpost]

/-- C1 witness: a concrete two-event log `[Start "A", Stop]` continued at
instant 5 appends `Start "A"` at time 5 with no message. -/
theorem continue_tracking_spec_witness :
    continue_tracking
      [TrackingEvent.Start ⟨some "A", 1⟩, TrackingEvent.Stop ⟨none, 2⟩] 5 =
      ([TrackingEvent.Start ⟨some "A", 1⟩, TrackingEvent.Stop ⟨none, 2⟩] ++
        [TrackingEvent.Start ⟨some "A", 5⟩], false) :=
  (continue_tracking_spec _ 5).2.2 ⟨none, 2⟩ [] ⟨some "A", 1⟩
    [TrackingEvent.Stop ⟨none, 2⟩] (by decide) (by decide) (by decide)


/-! ## Claim C6 -/

theorem start_tracking_empty (d : Option String) (t : Int) :
    start_tracking [] d t = [.Start ⟨d, t⟩] := rfl

theorem start_tracking_last_stop {l : List TrackingEvent} {td : TrackingData}
    (hl : l.getLast? = some (.Stop td)) (d : Option String) (t : Int) :
    start_tracking l d t = l ++ [.Start ⟨d, t⟩] := by
  simp [start_tracking, hl, TrackingEvent.is_stop]

theorem start_tracking_last_start {l : List TrackingEvent} {td : TrackingData}
    (hl : l.getLast? = some (.Start td)) (d : Option String) (t : Int) :
    start_tracking l d t = l := by
  simp [start_tracking, hl, TrackingEvent.is_stop]

theorem stop_tracking_empty (d : Option String) (t : Int) :
    stop_tracking [] d t = [.Stop ⟨d, t⟩] := rfl

theorem stop_tracking_last_start {l : List TrackingEvent} {td : TrackingData}
    (hl : l.getLast? = some (.Start td)) (d : Option String) (t : Int) :
    stop_tracking l d t = l ++ [.Stop ⟨d, t⟩] := by
  simp [stop_tracking, hl, TrackingEvent.is_start]

theorem stop_tracking_last_stop {l : List TrackingEvent} {td : TrackingData}
    (hl : l.getLast? = some (.Stop td)) (d : Option String) (t : Int) :
    stop_tracking l d t = l := by
  simp [stop_tracking, hl, TrackingEvent.is_start]

theorem append_singleton_ne (l : List TrackingEvent) (x : TrackingEvent) :
    l ++ [x] ≠ l := by
  intro h
  have := congrArg List.length h
  simp at this

/-- C6: `start_tracking` appends exactly one `Start` iff the log is empty or
ends in a `Stop` and is otherwise the identity, so a second `start` right
after a first leaves the length unchanged; `stop_tracking` is symmetric
(appending a `Stop` iff the log is empty or ends in a `Start`). -/
theorem start_stop_tracking_spec (l : List TrackingEvent) (d d' : Option String)
    (t t' : Int) :
    (start_tracking l d t = l ++ [.Start ⟨d, t⟩] ↔
      l = [] ∨ ∃ e, l.getLast? = some e ∧ e.is_stop = true)
    ∧ (start_tracking l d t = l ↔
      ¬ (l = [] ∨ ∃ e, l.getLast? = some e ∧ e.is_stop = true))
    ∧ (start_tracking (start_tracking l d t) d' t').length =
        (start_tracking l d t).length
    ∧ (stop_tracking l d t = l ++ [.Stop ⟨d, t⟩] ↔
      l = [] ∨ ∃ e, l.getLast? = some e ∧ e.is_start = true)
    ∧ (stop_tracking l d t = l ↔
      ¬ (l = [] ∨ ∃ e, l.getLast? = some e ∧ e.is_start = true))
    ∧ (stop_tracking (stop_tracking l d t) d' t').length =
        (stop_tracking l d t).length := by
  rcases hl : l.getLast? with _ | e
  · rw [List.getLast?_eq_none_iff] at hl
    subst hl
    refine ⟨?_, ?_, ?_, ?_, ?_, ?_⟩
    · simp [start_tracking_empty]
    · simp [start_tracking_empty]
    · have h1 : [TrackingEvent.Start ⟨d, t⟩].getLast? =
          some (.Start ⟨d, t⟩) := by simp
      rw [start_tracking_empty, start_tracking_last_start h1 d' t']
    · simp [stop_tracking_empty]
    · simp [stop_tracking_empty]
    · have h1 : [TrackingEvent.Stop ⟨d, t⟩].getLast? =
          some (.Stop ⟨d, t⟩) := by simp
      rw [stop_tracking_empty, stop_tracking_last_stop h1 d' t']
  · have hlne : l ≠ [] := by
      rintro rfl
      simp at hl
    cases e with
    | Start td =>
      have hs : start_tracking l d t = l := start_tracking_last_start hl d t
      have hp : stop_tracking l d t = l ++ [.Stop ⟨d, t⟩] :=
        stop_tracking_last_start hl d t
      refine ⟨?_, ?_, ?_, ?_, ?_, ?_⟩
      · rw [hs]
        constructor
        · intro h
          exact absurd h.symm (append_singleton_ne l _)
        · rintro (rfl | ⟨e', he', hstop⟩)
          · exact absurd rfl hlne
          · simp only [Option.some.injEq] at he'
            subst he'
            simp [TrackingEvent.is_stop] at hstop
      · rw [hs]
        simp only [true_iff]
        rintro (rfl | ⟨e', he', hstop⟩)
        · exact absurd rfl hlne
        · simp only [Option.some.injEq] at he'
          subst he'
          simp [TrackingEvent.is_stop] at hstop
      · rw [hs, start_tracking_last_start hl d' t']
      · rw [hp]
        simp only [true_iff]
        exact Or.inr ⟨.Start td, rfl, rfl⟩
      · rw [hp]
        constructor
        · intro h
          exact absurd h (append_singleton_ne l _)
        · intro h
          exact absurd (Or.inr ⟨.Start td, rfl, rfl⟩) h
      · have h1 : (l ++ [TrackingEvent.Stop ⟨d, t⟩]).getLast? =
            some (.Stop ⟨d, t⟩) := List.getLast?_concat l
        rw [hp, stop_tracking_last_stop h1 d' t']
    | Stop td =>
      have hs : start_tracking l d t = l ++ [.Start ⟨d, t⟩] :=
        start_tracking_last_stop hl d t
      have hp : stop_tracking l d t = l := stop_tracking_last_stop hl d t
      refine ⟨?_, ?_, ?_, ?_, ?_, ?_⟩
      · rw [hs]
        simp only [true_iff]
        exact Or.inr ⟨.Stop td, rfl, rfl⟩
      · rw [hs]
        constructor
        · intro h
          exact absurd h (append_singleton_ne l _)
        · intro h
          exact absurd (Or.inr ⟨.Stop td, rfl, rfl⟩) h
      · have h1 : (l ++ [TrackingEvent.Start ⟨d, t⟩]).getLast? =
            some (.Start ⟨d, t⟩) := List.getLast?_concat l
        rw [hs, start_tracking_last_start h1 d' t']
      · rw [hp]
        constructor
        · intro h
          exact absurd h.symm (append_singleton_ne l _)
        · rintro (rfl | ⟨e', he', hstart⟩)
          · exact absurd rfl hlne
          · simp only [Option.some.injEq] at he'
            subst he'
            simp [TrackingEvent.is_start] at hstart
      · rw [hp]
        simp only [true_iff]
        rintro (rfl | ⟨e', he', hstart⟩)
        · exact absurd rfl hlne
        · simp only [Option.some.injEq] at he'
          subst he'
          simp [TrackingEvent.is_start] at hstart
      · rw [hp, stop_tracking_last_stop hl d' t']

/-- C6 witness: on the empty log `start` appends; starting twice appends only
once; `stop` then appends a `Stop`. -/
theorem start_stop_tracking_spec_witness :
    start_tracking [] (some "A") 3 = [TrackingEvent.Start ⟨some "A", 3⟩]
    ∧ (start_tracking (start_tracking [] (some "A") 3) (some "B") 4).length =
        (start_tracking [] (some "A") 3).length
    ∧ stop_tracking [TrackingEvent.Start ⟨some "A", 3⟩] none 9 =
        [TrackingEvent.Start ⟨some "A", 3⟩, TrackingEvent.Stop ⟨none, 9⟩] :=
  ⟨((start_stop_tracking_spec [] (some "A") (some "B") 3 4).1).mpr (Or.inl rfl),
   (start_stop_tracking_spec [] (some "A") (some "B") 3 4).2.2.1,
   ((start_stop_tracking_spec [TrackingEvent.Start ⟨some "A", 3⟩] none none 9
      9).2.2.2.1).mpr (Or.inr ⟨.Start ⟨some "A", 3⟩, by decide, rfl⟩)⟩

/-! ## Claim C7 -/

/-- C7 (counterexample): the log `[Stop]` is reachable from the empty log by
a single `stop_tracking` call, and its first event is not a `Start`. -/
theorem runOps_first_event_not_start :
    ¬ (∀ e, (runOps [LogOp.stop none 0]).head? = some e → e.is_start = true) :=
  fun h => absurd (h (.Stop ⟨none, 0⟩) (by decide)) (by decide)

theorem alternates_append (l : List TrackingEvent) (x : TrackingEvent)
    (hl : Alternates l)
    (hlast : ∀ e, l.getLast? = some e → e.is_start ≠ x.is_start) :
    Alternates (l ++ [x]) := by
  rw [Alternates, List.chain'_append]
  refine ⟨hl, List.chain'_singleton x, ?_⟩
  intro a ha b hb
  simp only [List.head?_cons, Option.mem_def, Option.some.injEq] at hb
  subst hb
  exact hlast a ha

theorem applyOp_alternates (l : List TrackingEvent) (op : LogOp)
    (hl : Alternates l) : Alternates (applyOp l op) := by
  cases op with
  | start d t =>
    show Alternates (start_tracking l d t)
    rcases hle : l.getLast? with _ | e
    · rw [List.getLast?_eq_none_iff] at hle
      subst hle
      exact List.chain'_singleton _
    · cases e with
      | Start td =>
        rw [start_tracking_last_start hle d t]
        exact hl
      | Stop td =>
        rw [start_tracking_last_stop hle d t]
        refine alternates_append l _ hl ?_
        intro e' he'
        rw [hle] at he'
        cases he'
        simp [TrackingEvent.is_start]
  | stop d t =>
    show Alternates (stop_tracking l d t)
    rcases hle : l.getLast? with _ | e
    · rw [List.getLast?_eq_none_iff] at hle
      subst hle
      exact List.chain'_singleton _
    · cases e with
      | Stop td =>
        rw [stop_tracking_last_stop hle d t]
        exact hl
      | Start td =>
        rw [stop_tracking_last_start hle d t]
        refine alternates_append l _ hl ?_
        intro e' he'
        rw [hle] at he'
        cases he'
        simp [TrackingEvent.is_start]

theorem foldl_applyOp_alternates (ops : List LogOp) :
    ∀ l, Alternates l → Alternates (ops.foldl applyOp l) := by
  induction ops with
  | nil => exact fun l hl => hl
  | cons op rest ih =>
    intro l hl
    exact ih (applyOp l op) (applyOp_alternates l op hl)

/-- C7 (amended): every log reachable from the empty log by `start_tracking`
and `stop_tracking` calls strictly alternates in kind (no two adjacent events
share a kind); the first event of a non-empty reachable log can however be a
`Stop`, because `stop_tracking` on the empty log appends a `Stop`. -/
theorem runOps_alternates (ops : List LogOp) : Alternates (runOps ops) :=
  foldl_applyOp_alternates ops [] List.chain'_nil

/-! ## Claim C4 -/

theorem sumSessions_eq_chunks (include_seconds : Bool) (now : Int)
    (m : List TrackingEvent) :
    sumSessions include_seconds now m =
      ((chunksOfTwo m).map (sessionValue include_seconds now)).sum := by
  induction m using chunksOfTwo.induct with
  | case1 => rfl
  | case2 a => simp [sumSessions, chunksOfTwo, sessionValue]
  | case3 a b rest ih =>
    simp only [sumSessions, chunksOfTwo, List.map_cons, List.sum_cons,
      sessionValue, ih]

/-- C4: the pairing loop of `show`, run on the filtered sequence, computes
exactly the specification's aggregation: drop the leading `Stop` run, then
split the remainder into consecutive pairs left to right ignoring event kind,
summing second-minus-first per complete pair, with a trailing lone element
contributing now-minus-element, and nothing more once the sequence is
exhausted. -/
theorem show_aggregation_spec (tz : Int) (data : List TrackingEvent)
    (fr toB : Option DateOrDateTime) (filter : Option String)
    (include_seconds : Bool) (now : Int) :
    sumSessions include_seconds now
      ((filteredEvents tz data fr toB filter).dropWhile TrackingEvent.is_stop) =
      specAggregate include_seconds now (filteredEvents tz data fr toB filter) :=
  sumSessions_eq_chunks include_seconds now _

/-! ## Claim C5 -/

theorem time_false_eq_truncMin (e : TrackingEvent) :
    e.time false = truncMin (e.time true) := by
  cases e <;> rfl

theorem truncEvent_time_true (e : TrackingEvent) :
    (truncEvent e).time true = truncMin (e.time true) := by
  cases e <;> rfl

/-- C5: with `include_seconds = false` every instant entering the duration
computation is second-truncated before subtraction and nothing else is
rounded: the run equals the `include_seconds = true` run on the log whose
stored timestamps (and `now`) have their seconds field zeroed.  With
`include_seconds = true` the raw stored instants are used unchanged
(`e.time true` is the stored timestamp, and `truncEvent` is what zeroing
the seconds field of an event means). -/
theorem include_seconds_policy (now : Int) (l : List TrackingEvent) :
    sumSessions false now l =
      sumSessions true (truncMin now) (l.map truncEvent)
    ∧ (∀ e : TrackingEvent, e.time false = truncMin (e.time true))
    ∧ (∀ td : TrackingData, (TrackingEvent.Start td).time true = td.time
        ∧ (TrackingEvent.Stop td).time true = td.time) := by
  refine ⟨?_, time_false_eq_truncMin, fun td => ⟨rfl, rfl⟩⟩
  induction l using chunksOfTwo.induct with
  | case1 => rfl
  | case2 a =>
    simp [sumSessions, time_false_eq_truncMin, truncEvent_time_true]
  | case3 a b rest ih =>
    simp only [List.map_cons, sumSessions, ih, time_false_eq_truncMin,
      truncEvent_time_true]

/-! ## Claim C8 -/

theorem fromPred_all (tz : Int) (fr : Option DateOrDateTime)
    (e : TrackingEvent) : fromPred tz (some "all") fr e = true := rfl

theorem toPred_all (tz : Int) (toB : Option DateOrDateTime)
    (e : TrackingEvent) : toPred tz (some "all") toB e = true := rfl

theorem descPred_all (e : TrackingEvent) : descPred (some "all") e = true := by
  cases h : e.description with
  | none => simp [descPred, h]
  | some d => simp [descPred, h]

theorem filteredEvents_all (tz : Int) (data : List TrackingEvent)
    (fr toB : Option DateOrDateTime) :
    filteredEvents tz data fr toB (some "all") = data := by
  unfold filteredEvents
  rw [List.filter_eq_self.mpr fun a _ => fromPred_all tz fr a,
    List.filter_eq_self.mpr fun a _ => toPred_all tz toB a,
    List.filter_eq_self.mpr fun a _ => descPred_all a]

theorem resolveWindow_all (fa ta : Option DateOrDateTime) (today : Date) :
    resolveWindow (some "all") fa ta today =
      some (resolveDefault (some "all") fa ta today) := rfl

/-- C8: with the literal filter `"all"`, the from-bound, to-bound and
description tests each accept every event, the filtered sequence is the whole
log, and the total computed by `show` does not depend on whatever `from`/`to`
window arguments were supplied. -/
theorem all_filter_bypass (tz : Int) (data : List TrackingEvent)
    (fr toB fa1 ta1 fa2 ta2 : Option DateOrDateTime) (e : TrackingEvent)
    (include_seconds : Bool) (today : Date) (now : Int) :
    fromPred tz (some "all") fr e = true
    ∧ toPred tz (some "all") toB e = true
    ∧ descPred (some "all") e = true
    ∧ filteredEvents tz data fr toB (some "all") = data
    ∧ showTotal data fa1 ta1 (some "all") include_seconds today now tz =
        showTotal data fa2 ta2 (some "all") include_seconds today now tz := by
  refine ⟨fromPred_all tz fr e, toPred_all tz toB e, descPred_all e,
    filteredEvents_all tz data fr toB, ?_⟩
  rw [showTotal, showTotal, resolveWindow_all, resolveWindow_all]
  simp only [resolveDefault, filteredEvents_all]

/-! ## Claim C10 -/

theorem descPred_none (f : String) (e : TrackingEvent)
    (h : e.description = none) : descPred (some f) e = (f == "all") := by
  unfold descPred
  rw [h]

theorem descPred_some (f d : String) (e : TrackingEvent)
    (h : e.description = some d) :
    descPred (some f) e = (f == "all" || hasSub f.toList d.toList) := by
  unfold descPred
  rw [h]

/-- C10: under any filter string other than the literal `"all"`, every event
surviving `show`'s filters carries a description, and that description
contains the filter as a substring — events with an absent description are
excluded even when their timestamp is inside the window. -/
theorem desc_filter_requires_description (tz : Int) (data : List TrackingEvent)
    (fr toB : Option DateOrDateTime) (s : String) (e : TrackingEvent)
    (hs : s ≠ "all")
    (he : e ∈ filteredEvents tz data fr toB (some s)) :
    e.description.isSome = true
    ∧ hasSub s.toList ((e.description.getD "").toList) = true := by
  have hd : descPred (some s) e = true := List.of_mem_filter he
  cases hdesc : e.description with
  | none =>
    rw [descPred_none s e hdesc] at hd
    exact absurd (eq_of_beq hd) hs
  | some d =>
    rw [descPred_some s d e hdesc] at hd
    rcases Bool.or_eq_true_iff.mp hd with h | h
    · exact absurd (eq_of_beq h) hs
    · exact ⟨rfl, h⟩

/-- C10 witness: with filter `"x"`, the event `Start "box"` passes the
description test while a description-less event is excluded (it is the lone
survivor of a two-event log). -/
theorem desc_filter_requires_description_witness :
    (TrackingEvent.Start ⟨some "box", 5⟩).description.isSome = true
    ∧ hasSub "x".toList
        (((TrackingEvent.Start ⟨some "box", 5⟩).description.getD "").toList) =
        true :=
  desc_filter_requires_description 0
    [.Start ⟨some "box", 5⟩, .Start ⟨none, 6⟩] none none "x"
    (.Start ⟨some "box", 5⟩) (by decide) (by decide)

/-! ## Claim C3 -/

/-- C3 (counterexample): a log whose `Stop` precedes its `Start` in time makes
`show` report a negative total — the seconds component printed by
`split_duration` is `-50`. -/
theorem show_total_negative :
    showTotal [.Start ⟨none, 100⟩, .Stop ⟨none, 50⟩] none none (some "all")
        true ⟨1970, 1, 1⟩ 0 0 = some (-50)
    ∧ ¬ (0 ≤ (split_duration (-50)).2.2) := by
  constructor
  · rfl
  · decide

theorem truncMin_mono {a b : Int} (h : a ≤ b) : truncMin a ≤ truncMin b := by
  unfold truncMin
  omega

theorem time_mono {a b : TrackingEvent} (include_seconds : Bool)
    (h : a.time true ≤ b.time true) :
    a.time include_seconds ≤ b.time include_seconds := by
  cases include_seconds with
  | true => exact h
  | false =>
    rw [time_false_eq_truncMin, time_false_eq_truncMin]
    exact truncMin_mono h

theorem sumSessions_nonneg (include_seconds : Bool) (now : Int)
    (l : List TrackingEvent)
    (hchain : List.Chain' (fun a b => a.time true ≤ b.time true) l)
    (hnow : ∀ e ∈ l, e.time true ≤ now) :
    0 ≤ sumSessions include_seconds now l := by
  induction l using chunksOfTwo.induct with
  | case1 => exact le_refl 0
  | case2 a =>
    have ha : a.time true ≤ now := hnow a (List.mem_singleton.mpr rfl)
    cases include_seconds with
    | true =>
      rw [sumSessions, if_pos rfl]
      omega
    | false =>
      rw [sumSessions, if_neg (by decide), time_false_eq_truncMin]
      have := truncMin_mono ha
      omega
  | case3 a b rest ih =>
    have hab : a.time true ≤ b.time true := (List.chain'_cons.mp hchain).1
    have hab' := time_mono include_seconds hab
    have hrest : List.Chain' (fun a b => a.time true ≤ b.time true) rest :=
      ((List.chain'_cons.mp hchain).2).tail
    have hnr : ∀ e ∈ rest, e.time true ≤ now := fun e he =>
      hnow e (List.mem_cons_of_mem a (List.mem_cons_of_mem b he))
    have := ih hrest hnr
    rw [sumSessions]
    omega

theorem split_duration_nonneg (t : Int) (h : 0 ≤ t) :
    0 ≤ (split_duration t).1 ∧ 0 ≤ (split_duration t).2.1
      ∧ 0 ≤ (split_duration t).2.2 := by
  simp only [split_duration]
  rw [Int.tdiv_eq_ediv h (by norm_num), Int.tdiv_eq_ediv h (by norm_num)]
  refine ⟨by omega, by omega, by omega⟩

/-- C3 (amended): the components printed by `show` are all non-negative for
every log whose events are in chronological order (by raw timestamp) with
`now` no earlier than any of them; with out-of-order timestamps the total,
and hence a printed component, can be negative. -/
theorem show_total_nonneg (tz : Int) (data : List TrackingEvent)
    (fromArg toArg : Option DateOrDateTime) (filter : Option String)
    (include_seconds : Bool) (today : Date) (now t : Int)
    (hchain : List.Chain' (fun a b => a.time true ≤ b.time true) data)
    (hnow : ∀ e ∈ data, e.time true ≤ now)
    (ht : showTotal data fromArg toArg filter include_seconds today now tz =
      some t) :
    0 ≤ t ∧ 0 ≤ (split_duration t).1 ∧ 0 ≤ (split_duration t).2.1
      ∧ 0 ≤ (split_duration t).2.2 := by
  haveI : IsTrans TrackingEvent (fun a b => a.time true ≤ b.time true) :=
    ⟨fun _ _ _ hab hbc => le_trans hab hbc⟩
  rcases hr : resolveWindow filter fromArg toArg today with _ | ⟨f, fr, toB⟩
  · rw [showTotal, hr] at ht
    cases ht
  · rw [showTotal, hr] at ht
    have hsub :
        ((filteredEvents tz data fr toB f).dropWhile
          TrackingEvent.is_stop).Sublist data := by
      refine List.Sublist.trans (List.dropWhile_sublist _) ?_
      unfold filteredEvents
      exact List.Sublist.trans (List.filter_sublist _)
        (List.Sublist.trans (List.filter_sublist _) (List.filter_sublist _))
    have hchain' := List.Chain'.sublist hchain hsub
    have hnow' : ∀ e ∈ (filteredEvents tz data fr toB f).dropWhile
        TrackingEvent.is_stop, e.time true ≤ now :=
      fun e he => hnow e (hsub.subset he)
    have h0 := sumSessions_nonneg include_seconds now _ hchain' hnow'
    have : t = sumSessions include_seconds now
        ((filteredEvents tz data fr toB f).dropWhile TrackingEvent.is_stop) :=
      (Option.some.injEq _ _ ▸ ht).symm
    subst this
    exact ⟨h0, split_duration_nonneg _ h0⟩

/-- C3 witness: a concrete chronological log `[Start 100, Stop 200]` viewed at
`now = 300` yields total 100 with all components non-negative. -/
theorem show_total_nonneg_witness :
    0 ≤ (100 : Int) ∧ 0 ≤ (split_duration 100).1
      ∧ 0 ≤ (split_duration 100).2.1 ∧ 0 ≤ (split_duration 100).2.2 :=
  show_total_nonneg 0 [.Start ⟨none, 100⟩, .Stop ⟨none, 200⟩] none none none
    true ⟨1970, 1, 1⟩ 300 100 (List.chain'_pair.mpr (by decide)) (by decide) rfl

/-! ## Claim C9 -/

theorem daysFromCivil_nextDay (d : Date) (hd : validDate d) :
    daysFromCivil (nextDay d) = daysFromCivil d + 1 := by
  obtain ⟨y, m, day⟩ := d
  obtain ⟨hm1, hm2, hd1, hd2⟩ := hd
  dsimp only at hm1 hm2 hd1 hd2
  unfold nextDay
  dsimp only
  split
  · simp only [daysFromCivil]
    push_cast
    ring
  · rename_i hge
    split
    · rename_i hm12
      have hday : (day : Int) = daysInMonth y m := le_antisymm hd2 (not_lt.mp hge)
      rcases Bool.eq_false_or_eq_true (isLeap y) with hleap | hleap <;>
        (interval_cases m <;>
          simp only [daysInMonth, hleap, Bool.false_eq_true, if_true, if_false,
            ite_true, ite_false] at hday <;>
          simp only [daysFromCivil, daysBeforeMonth, daysInMonth, hleap,
            Bool.false_eq_true, if_true, if_false, ite_true, ite_false] <;>
          omega)
    · rename_i hm12
      have hm : m = 12 := by omega
      subst hm
      have hday : (day : Int) = 31 := by
        simpa [daysInMonth] using le_antisymm hd2 (not_lt.mp hge)
      simp only [daysFromCivil, daysBeforeMonth, daysInMonth, leapsBefore]
      rcases Bool.eq_false_or_eq_true (isLeap y) with hleap | hleap <;>
        simp only [hleap, Bool.false_eq_true, if_true, if_false, ite_true,
          ite_false] <;>
        simp only [isLeap, Bool.or_eq_true, Bool.and_eq_true, beq_iff_eq,
          bne_iff_ne, ne_eq, Bool.or_eq_false_iff, Bool.and_eq_false_iff,
          beq_eq_false_iff_ne, bne_eq_false_iff_eq] at hleap
      · rcases hleap with ⟨h1, h2⟩ | h1 <;> omega
      · obtain ⟨h1, h2⟩ := hleap
        rcases h1 with h1 | h1 <;> omega

theorem naiveToUtc_end_of_day (tz : Int) (d : Date) :
    naiveToUtc tz ⟨d, 23, 59, 59⟩ = localMidnightUtc tz d + 86399 := by
  unfold naiveToUtc localMidnightUtc naiveToUtc
  ring

theorem localMidnightUtc_nextDay (tz : Int) (d : Date) (hd : validDate d) :
    localMidnightUtc tz (nextDay d) = localMidnightUtc tz d + 86400 := by
  unfold localMidnightUtc naiveToUtc
  rw [daysFromCivil_nextDay d hd]
  ring

/-- C9: window bounds are inclusive exactly as described — a `Date` lower
bound admits the events at or after that day's local midnight, a `Date` upper
bound admits the events at or before that day's local 23:59:59 (so an event at
the next day's local midnight is rejected), and `DateTime` bounds admit
events at or after (resp. at or before) that exact instant. -/
theorem window_bounds_inclusive (tz : Int) (d : Date) (dt : NaiveDT)
    (e : TrackingEvent) (hd : validDate d) :
    (fromPred tz none (some (.Date d)) e = true ↔
      localMidnightUtc tz d ≤ e.time true)
    ∧ (toPred tz none (some (.Date d)) e = true ↔
      e.time true ≤ localMidnightUtc tz d + 86399)
    ∧ (fromPred tz none (some (.DateTime dt)) e = true ↔
      naiveToUtc tz dt ≤ e.time true)
    ∧ (toPred tz none (some (.DateTime dt)) e = true ↔
      e.time true ≤ naiveToUtc tz dt)
    ∧ (e.time true = localMidnightUtc tz (nextDay d) →
      toPred tz none (some (.Date d)) e = false) := by
  refine ⟨?_, ?_, ?_, ?_, ?_⟩
  · simp [fromPred]
  · rw [show toPred tz none (some (.Date d)) e =
      decide (e.time true ≤ naiveToUtc tz ⟨d, 23, 59, 59⟩) from rfl,
      naiveToUtc_end_of_day]
    exact decide_eq_true_iff
  · simp [fromPred]
  · simp [toPred]
  · intro h
    rw [show toPred tz none (some (.Date d)) e =
      decide (e.time true ≤ naiveToUtc tz ⟨d, 23, 59, 59⟩) from rfl,
      naiveToUtc_end_of_day]
    rw [h, localMidnightUtc_nextDay tz d hd]
    simp

/-- C9 witness: at the 2021→2022 year boundary with offset 0, the event at
instant 1640995200 (2022-01-01 00:00:00, the next day's midnight) fails the
`to` test for the Date bound 2021-12-31, while 1640995199 (23:59:59) and the
day's own midnight 1640908800 pass the respective tests. -/
theorem window_bounds_inclusive_witness :
    toPred 0 none (some (.Date ⟨2021, 12, 31⟩))
      (.Start ⟨none, 1640995200⟩) = false
    ∧ toPred 0 none (some (.Date ⟨2021, 12, 31⟩))
      (.Start ⟨none, 1640995199⟩) = true
    ∧ fromPred 0 none (some (.Date ⟨2021, 12, 31⟩))
      (.Start ⟨none, 1640908800⟩) = true :=
  ⟨(window_bounds_inclusive 0 ⟨2021, 12, 31⟩ ⟨⟨2021, 12, 31⟩, 0, 0, 0⟩
      (.Start ⟨none, 1640995200⟩) (by decide)).2.2.2.2 (by decide),
   (window_bounds_inclusive 0 ⟨2021, 12, 31⟩ ⟨⟨2021, 12, 31⟩, 0, 0, 0⟩
      (.Start ⟨none, 1640995199⟩) (by decide)).2.1.mpr (by decide),
   (window_bounds_inclusive 0 ⟨2021, 12, 31⟩ ⟨⟨2021, 12, 31⟩, 0, 0, 0⟩
      (.Start ⟨none, 1640908800⟩) (by decide)).1.mpr (by decide)⟩

/-! ## Claim C2 -/

/-- C2: behaviour of the `"week"` filter at concrete local days.  On
2021-06-30 (a Wednesday whose Sunday falls in July) `with_day(30 + 4)` fails
and `show` yields `none` — the caller unwraps and panics — whatever
`from`/`to` arguments accompany it; on 2021-07-01 (a Thursday whose Monday
falls in June) the `u32` day arithmetic `1 - 3` already leaves the valid
range, with the same outcome.  On 2021-06-16, a day whose whole week sits in
one month, the resolver does return the Monday and Sunday whole-day window,
ignores the supplied `from`/`to`, and clears the description filter. -/
theorem week_filter_month_boundary (data : List TrackingEvent)
    (fromArg toArg : Option DateOrDateTime) (include_seconds : Bool)
    (now tz : Int) :
    showTotal data fromArg toArg (some "week") include_seconds
        ⟨2021, 6, 30⟩ now tz = none
    ∧ showTotal data fromArg toArg (some "week") include_seconds
        ⟨2021, 7, 1⟩ now tz = none
    ∧ resolveWindow (some "week") fromArg toArg ⟨2021, 6, 16⟩ =
        some (none, some (.Date ⟨2021, 6, 14⟩), some (.Date ⟨2021, 6, 20⟩)) :=
  ⟨rfl, rfl, rfl⟩
